import Mathlib

/-!
Verification of the clunk audio library sources: the Object source-map
operations and lock discipline (object.cpp), the SSE FFT specialization
(sse_fft_context.h) and the MDCT kernel (mdct_context.h).
Machine floats are modelled by exact arithmetic (ℚ for the FFT data path,
ℝ for the trigonometric MDCT path); C++ std::multimap is modelled as an
association list whose equal_range is the subsequence of entries with the
given key, in order.
-/

namespace Clunk

/-- Per-source mutable state, as seen by the Object operations of object.cpp:
the public `loop` flag and the pending fade-out request (`some τ` once
`fade_out τ` has been invoked).
Modelled from the spec: `Source::fade_out` lives in source.cpp, which is not
among the sources at hand; per the spec it triggers the fade-out envelope,
recorded here as the "fade-out remaining" attribute of §3. -/
structure Source where
  loop : Bool
  fadeRemaining : Option ℚ
  deriving DecidableEq

/-- Effect of `Source::fade_out(fadeout)` on the source state.
Modelled from the spec: sets the fade-out remaining attribute. -/
def fadeOutSource (τ : ℚ) (s : Source) : Source :=
  { s with fadeRemaining := some τ }

/-- Object::cancel(key, fadeout) from object.cpp, acting on one source
multimap: over the equal_range of `key`, a zero fadeout deletes and erases
each source; a nonzero fadeout calls fade_out only on sources with the loop
flag set and leaves every entry in place. Entries under other keys are not
visited. -/
def cancelKey {K : Type} [DecidableEq K] (k : K) (fade : ℚ) :
    List (K × Source) → List (K × Source)
  | [] => []
  | e :: rest =>
      if e.1 = k then
        if fade = 0 then cancelKey k fade rest
        else (e.1, if e.2.loop then fadeOutSource fade e.2 else e.2) :: cancelKey k fade rest
      else e :: cancelKey k fade rest

/-- Body of Object::set_loop from object.cpp: walk the entries, and on the
range of `key` assign `loop` on the first visited entry (`i == b`) and
`false` on the rest. The boolean argument tracks whether the next matching
entry is still the first of the range. -/
def setLoopGo {K : Type} [DecidableEq K] (k : K) (flag : Bool) :
    List (K × Source) → Bool → List (K × Source)
  | [], _ => []
  | e :: rest, first =>
      if e.1 = k then
        (e.1, { e.2 with loop := if first then flag else false }) :: setLoopGo k flag rest false
      else e :: setLoopGo k flag rest first

/-- Object::set_loop(key, loop) from object.cpp. -/
def setLoop {K : Type} [DecidableEq K] (k : K) (flag : Bool) (m : List (K × Source)) :
    List (K × Source) :=
  setLoopGo k flag m true

/-- Object::get_loop(key) from object.cpp: scan the equal_range of `key`,
returning true at the first source whose loop flag is set. -/
def getLoop {K : Type} [DecidableEq K] (k : K) : List (K × Source) → Bool
  | [] => false
  | e :: rest =>
      if e.1 = k then (if e.2.loop then true else getLoop k rest) else getLoop k rest

/-- The file-local helper `_cancel_all(sources, force, fadeout)` of object.cpp:
iterate over the whole map, destroying every source when `force` holds and
otherwise fading out just the looping ones; afterwards, when `force` holds,
clear the map. -/
def cancelAllMap {K : Type} (force : Bool) (fade : ℚ) (m : List (K × Source)) :
    List (K × Source) :=
  let m' := m.map fun e =>
    if force then e else if e.2.loop then (e.1, fadeOutSource fade e.2) else e
  if force then [] else m'

/-- State of an Object relevant to the source-map operations: the two
multimaps (name-keyed and index-keyed) and the dead flag. -/
structure ObjState (K1 K2 : Type) where
  named : List (K1 × Source)
  indexed : List (K2 × Source)
  dead : Bool

/-- Object::cancel_all(force, fadeout) from object.cpp: apply `_cancel_all`
to the indexed map and then to the named map. -/
def cancelAll {K1 K2 : Type} (force : Bool) (fade : ℚ) (st : ObjState K1 K2) :
    ObjState K1 K2 :=
  { st with
    indexed := cancelAllMap force fade st.indexed
    named := cancelAllMap force fade st.named }

/-- Object::autodelete from object.cpp: cancel_all(); dead = true.
Modelled from the spec: the default arguments of `cancel_all` are declared in
object.h, which is absent here; the spec ("autodelete(): mark the object dead;
cancel all sources") fixes the default to force = true. -/
def autodelete {K1 K2 : Type} (st : ObjState K1 K2) : ObjState K1 K2 :=
  { cancelAll true 0 st with dead := true }

/-- Result of running the Object destructor: the final object state and
whether `context->delete_object(this)` was invoked. -/
structure DtorOutcome (K1 K2 : Type) where
  final : ObjState K1 K2
  notifiedContext : Bool

/-- Object::~Object from object.cpp: if the dead flag is set, return at once;
otherwise cancel_all() and notify the owning context.
Modelled from the spec: the defaulted `cancel_all()` arguments come from the
absent object.h, fixed to force = true as in `autodelete`. -/
def objectDtor {K1 K2 : Type} (st : ObjState K1 K2) : DtorOutcome K1 K2 :=
  if st.dead then ⟨st, false⟩
  else ⟨cancelAll true 0 st, true⟩

/-! ### Lock-discipline traces (object.cpp)

Each public Object method is abstracted to its sequence of atomic events:
acquiring and releasing the global audio lock (the RAII `AudioLocker`), and
accesses to the shared state it touches. The traces below are read off the
bodies in object.cpp, one event per touched field in source order. -/

/-- Classes of shared state named by the spec's locking invariant. -/
inductive SField
  | pose
  | sources
  | deadFlag
  | ctx
  deriving DecidableEq

/-- Atomic events of a public Object method: take the audio lock, release it
(end of the AudioLocker scope), or access a piece of shared state. -/
inductive Act
  | lock
  | unlock
  | acc (f : SField)
  deriving DecidableEq

/-- A trace body is clean when it performs no further lock operations and ends
with the single release of the method's AudioLocker. -/
def bodyClean : List Act → Bool
  | [] => false
  | [Act.unlock] => true
  | a :: rest => (!(a == Act.lock) && !(a == Act.unlock)) && bodyClean rest

/-- A method trace is well locked when its very first event acquires the audio
lock, its last event releases it, and no shared-state access falls outside
that span. -/
def wellLocked : List Act → Bool
  | Act.lock :: rest => bodyClean rest
  | _ => false

/-- Object::update: lock, write position, velocity, direction. -/
def traceUpdate : List Act := [.lock, .acc .pose, .acc .pose, .acc .pose, .unlock]

/-- Object::set_position. -/
def traceSetPosition : List Act := [.lock, .acc .pose, .unlock]

/-- Object::set_velocity. -/
def traceSetVelocity : List Act := [.lock, .acc .pose, .unlock]

/-- Object::set_direction. -/
def traceSetDirection : List Act := [.lock, .acc .pose, .unlock]

/-- Object::play (either overload): lock, insert into a source map. -/
def tracePlay : List Act := [.lock, .acc .sources, .unlock]

/-- Object::playing (either overload): lock, search a source map. -/
def tracePlaying : List Act := [.lock, .acc .sources, .unlock]

/-- Object::fade_out (either overload): lock, walk a source map range. -/
def traceFadeOut : List Act := [.lock, .acc .sources, .unlock]

/-- Object::cancel (either overload): lock, mutate a source map range. -/
def traceCancel : List Act := [.lock, .acc .sources, .unlock]

/-- Object::set_loop (either overload). -/
def traceSetLoop : List Act := [.lock, .acc .sources, .unlock]

/-- Object::get_loop (either overload). -/
def traceGetLoop : List Act := [.lock, .acc .sources, .unlock]

/-- Object::cancel_all: lock, then _cancel_all on the indexed and the named
map. -/
def traceCancelAll : List Act := [.lock, .acc .sources, .acc .sources, .unlock]

/-- Object::active: lock, read both source maps. -/
def traceActive : List Act := [.lock, .acc .sources, .acc .sources, .unlock]

/-- Object::autodelete: lock, cancel_all over both maps, set the dead flag. -/
def traceAutodelete : List Act :=
  [.lock, .acc .sources, .acc .sources, .acc .deadFlag, .unlock]

/-- Object::~Object when the dead flag is set: the flag is read (before any
locking) and the destructor returns at once. -/
def traceDtorDead : List Act := [.acc .deadFlag]

/-- Object::~Object when the dead flag is clear: the flag is read unlocked,
then the lock is taken, cancel_all runs over both maps and the context is
notified. -/
def traceDtorLive : List Act :=
  [.acc .deadFlag, .lock, .acc .sources, .acc .sources, .acc .ctx, .unlock]

/-! ### Theorems about the Object operations -/

theorem setLoopGo_getElem {K : Type} [DecidableEq K] (k : K) (flag : Bool)
    (m : List (K × Source)) (first : Bool) (i : ℕ) :
    (setLoopGo k flag m first)[i]? = (m[i]?).map (fun e =>
      if e.1 = k then
        (e.1, { e.2 with
          loop := if (m.take i).countP (fun x => decide (x.1 = k)) = 0 then
            (if first then flag else false) else false })
      else e) := by
  induction m generalizing first i with
  | nil => simp [setLoopGo]
  | cons e rest ih =>
      by_cases hk : e.1 = k
      · cases i with
        | zero => simp [setLoopGo, hk]
        | succ j =>
            simp only [setLoopGo]
            rw [if_pos hk]
            simp only [List.getElem?_cons_succ, List.take_succ_cons, List.countP_cons]
            rw [ih]
            simp [hk, ite_self]
      · cases i with
        | zero => simp [setLoopGo, hk]
        | succ j =>
            simp only [setLoopGo]
            rw [if_neg hk]
            simp only [List.getElem?_cons_succ, List.take_succ_cons, List.countP_cons]
            rw [ih]
            have hkd : (decide (e.1 = k) : Bool) = false := by simp [hk]
            rcases rest[j]? with _ | x
            · rfl
            · rw [hkd]
              by_cases hx : x.1 = k
              · simp [hx]
              · simp [hx]

/-- C4: `set_loop(key, flag)` rewrites, position by position, exactly the
entries under `key`: the first such entry (no earlier entry of the map has
that key) gets its loop flag set to `flag`, every later one gets it set to
`false`, and entries under other keys are returned unchanged. -/
theorem setLoop_first_gets_flag_rest_disabled {K : Type} [DecidableEq K]
    (k : K) (flag : Bool) (m : List (K × Source)) (i : ℕ) :
    (setLoop k flag m)[i]? = (m[i]?).map (fun e =>
      if e.1 = k then
        (e.1, { e.2 with
          loop := if (m.take i).countP (fun x => decide (x.1 = k)) = 0 then flag else false })
      else e) := by
  simpa using setLoopGo_getElem k flag m true i

/-- C5: `cancel(key, τ)` with τ = 0 erases every entry under `key` (destroying
the sources) and keeps the rest; with τ > 0 it maps fade_out over exactly the
looping sources under `key`, removing nothing and leaving non-looping sources
under `key` (and all other entries) unchanged. -/
theorem cancel_zero_erases_pos_fades_looping {K : Type} [DecidableEq K]
    (k : K) (m : List (K × Source)) (τ : ℚ) (hτ : 0 < τ) :
    cancelKey k 0 m = m.filter (fun e => decide (e.1 ≠ k)) ∧
    cancelKey k τ m =
      m.map (fun e => if e.1 = k ∧ e.2.loop then (e.1, fadeOutSource τ e.2) else e) := by
  have hτ0 : τ ≠ 0 := ne_of_gt hτ
  constructor
  · induction m with
    | nil => simp [cancelKey]
    | cons e rest ih =>
        by_cases hk : e.1 = k
        · simp [cancelKey, hk, ih]
        · simp [cancelKey, hk, ih]
  · induction m with
    | nil => simp [cancelKey]
    | cons e rest ih =>
        by_cases hk : e.1 = k
        · by_cases hl : e.2.loop
          · simp [cancelKey, hk, hτ0, hl, ih]
          · simp [cancelKey, hk, hτ0, hl, ih]
            rw [← hk]
        · simp [cancelKey, hk, ih]

theorem cancel_zero_erases_pos_fades_looping_witness :
    (0:ℚ) < 1 ∧
    (cancelKey (0:ℕ) 0 [(0, ⟨true, none⟩), (1, ⟨false, none⟩)] =
      List.filter (fun e => decide (e.1 ≠ 0)) [(0, ⟨true, none⟩), (1, ⟨false, none⟩)] ∧
    cancelKey (0:ℕ) 1 [(0, ⟨true, none⟩), (1, ⟨false, none⟩)] =
      List.map (fun e => if e.1 = 0 ∧ e.2.loop then (e.1, fadeOutSource 1 e.2) else e)
        [(0, ⟨true, none⟩), (1, ⟨false, none⟩)]) :=
  ⟨by norm_num,
    cancel_zero_erases_pos_fades_looping 0 [(0, ⟨true, none⟩), (1, ⟨false, none⟩)] 1
      (by norm_num)⟩

/-- C6: `cancel_all(force, τ)` with force destroys every source of both maps,
leaving the named and the indexed map empty; without force it only invokes
fade_out on the looping sources of the two maps and removes no entry. -/
theorem cancelAll_force_empties_else_fades {K1 K2 : Type} (τ : ℚ) (st : ObjState K1 K2) :
    (cancelAll true τ st).named = [] ∧
    (cancelAll true τ st).indexed = [] ∧
    (cancelAll false τ st).named =
      st.named.map (fun e => if e.2.loop then (e.1, fadeOutSource τ e.2) else e) ∧
    (cancelAll false τ st).indexed =
      st.indexed.map (fun e => if e.2.loop then (e.1, fadeOutSource τ e.2) else e) := by
  refine ⟨rfl, rfl, ?_, ?_⟩ <;> simp [cancelAll, cancelAllMap]

/-- C7: `get_loop(key)` returns true exactly when some entry currently under
`key` has its loop flag set. -/
theorem getLoop_iff_exists_looping {K : Type} [DecidableEq K]
    (k : K) (m : List (K × Source)) :
    getLoop k m = true ↔ ∃ e ∈ m, e.1 = k ∧ e.2.loop = true := by
  induction m with
  | nil => simp [getLoop]
  | cons e rest ih =>
      by_cases hk : e.1 = k
      · by_cases hl : e.2.loop
        · simp [getLoop, hk, hl]
        · simp [getLoop, hk, hl, ih]
      · simp [getLoop, hk, ih]

/-- C10: destructing an Object whose dead flag is set (as it is after
autodelete) is a no-op: the source maps are left exactly as they were and the
context is not notified; destructing a live Object empties both source maps
(cancel_all) and calls the context's delete_object. -/
theorem dtor_dead_noop_live_cancels_and_notifies {K1 K2 : Type} (st : ObjState K1 K2) :
    (objectDtor (autodelete st) = ⟨autodelete st, false⟩) ∧
    (st.dead = true → objectDtor st = ⟨st, false⟩) ∧
    (st.dead = false →
      objectDtor st = ⟨{ st with named := [], indexed := [] }, true⟩) := by
  refine ⟨?_, ?_, ?_⟩
  · simp [objectDtor, autodelete]
  · intro h; simp [objectDtor, h]
  · intro h; simp [objectDtor, h, cancelAll, cancelAllMap]

theorem dtor_dead_noop_live_cancels_and_notifies_witness :
    (objectDtor (autodelete (⟨[((0:ℕ), ⟨true, none⟩)], [], false⟩ : ObjState ℕ ℕ)) =
      ⟨autodelete ⟨[(0, ⟨true, none⟩)], [], false⟩, false⟩) ∧
    objectDtor (⟨[((0:ℕ), ⟨true, none⟩)], [], false⟩ : ObjState ℕ ℕ) =
      ⟨{ (⟨[(0, ⟨true, none⟩)], [], false⟩ : ObjState ℕ ℕ) with
          named := [], indexed := [] }, true⟩ ∧
    objectDtor (⟨[], [], true⟩ : ObjState ℕ ℕ) = ⟨⟨[], [], true⟩, false⟩ :=
  ⟨(dtor_dead_noop_live_cancels_and_notifies ⟨[(0, ⟨true, none⟩)], [], false⟩).1,
   (dtor_dead_noop_live_cancels_and_notifies ⟨[(0, ⟨true, none⟩)], [], false⟩).2.2 rfl,
   (dtor_dead_noop_live_cancels_and_notifies ⟨[], [], true⟩).2.1 rfl⟩

/-- C9 counterexample: the destructor is a public operation that does not
acquire the audio lock before touching shared state — it reads the dead flag
first, and on the dead path never locks at all. -/
theorem dtor_trace_not_well_locked :
    wellLocked traceDtorDead = false ∧ wellLocked traceDtorLive = false ∧
    traceDtorDead = [Act.acc SField.deadFlag] := by decide

/-- C9 (amended): every public Object operation except the destructor
acquires the audio lock as its first action and holds it for the whole body;
the destructor instead reads the dead flag unlocked, returns immediately when
it is set, and otherwise holds the lock for the entire remainder. -/
theorem public_ops_well_locked_except_dtor :
    wellLocked traceUpdate = true ∧ wellLocked traceSetPosition = true ∧
    wellLocked traceSetVelocity = true ∧ wellLocked traceSetDirection = true ∧
    wellLocked tracePlay = true ∧ wellLocked tracePlaying = true ∧
    wellLocked traceFadeOut = true ∧ wellLocked traceCancel = true ∧
    wellLocked traceSetLoop = true ∧ wellLocked traceGetLoop = true ∧
    wellLocked traceCancelAll = true ∧ wellLocked traceActive = true ∧
    wellLocked traceAutodelete = true ∧
    traceDtorDead = [Act.acc SField.deadFlag] ∧
    List.head? traceDtorLive = some (Act.acc SField.deadFlag) ∧
    wellLocked (List.drop 1 traceDtorLive) = true := by decide

/-! ### FFT bit-reversal scramble (sse_fft_context.h)

The data array is modelled as a total function from indices to values;
`scramble` folds the loop body of `fft_context<BITS, float>::scramble` over
`i = 0, …, N-1` carrying the array together with the running index `j`. -/

/-- Reversal of the low `B` bits of `i`: the least significant bit of `i`
becomes the most significant bit of the result. -/
def bitrev : ℕ → ℕ → ℕ
  | 0, _ => 0
  | B + 1, i => i % 2 * 2 ^ B + bitrev B (i / 2)

/-- The inner while loop of `scramble` together with the trailing `j += m`:
`while (j >= m && m >= 2) { j -= m; m >>= 1; } j += m;`. -/
def scrambleNext (j m : ℕ) : ℕ :=
  if h : 2 ≤ m ∧ m ≤ j then scrambleNext (j - m) (m / 2) else j + m
termination_by m
decreasing_by exact Nat.div_lt_self (by omega) (by omega)

/-- The `swap` helper of sse_fft_context.h as a functional array update. -/
def swapF {α : Type} (d : ℕ → α) (a b : ℕ) : ℕ → α :=
  fun x => if x = a then d b else if x = b then d a else d x

/-- One iteration of the scramble loop at index `i`: swap `data[i]` and
`data[j]` when `i > j`, then advance `j` starting from `m = N / 2`. -/
def scrambleStep {α : Type} (N : ℕ) (s : (ℕ → α) × ℕ) (i : ℕ) : (ℕ → α) × ℕ :=
  (if s.2 < i then swapF s.1 i s.2 else s.1, scrambleNext s.2 (N / 2))

/-- `fft_context<BITS, float>::scramble` from sse_fft_context.h: the in-place
permutation pass executed over `data[0..N)` before the butterfly stages. -/
def scramble {α : Type} (N : ℕ) (d : ℕ → α) : ℕ → α :=
  ((List.range N).foldl (scrambleStep N) (d, 0)).1

theorem bitrev_zero (B : ℕ) : bitrev B 0 = 0 := by
  induction B with
  | zero => rfl
  | succ B ih => simp [bitrev, ih]

theorem bitrev_lt (B : ℕ) : ∀ i, bitrev B i < 2 ^ B := by
  induction B with
  | zero => intro i; simp [bitrev]
  | succ B ih =>
      intro i
      have h1 := ih (i / 2)
      have h4 : i % 2 * 2 ^ B ≤ 1 * 2 ^ B := mul_le_mul_right' (by omega) (2 ^ B)
      have h3 : (2:ℕ) ^ (B + 1) = 2 ^ B * 2 := by rw [pow_succ]
      show i % 2 * 2 ^ B + bitrev B (i / 2) < 2 ^ (B + 1)
      omega

theorem bitrev_shift (B : ℕ) : ∀ i, i < 2 ^ (B + 1) →
    bitrev (B + 1) i = 2 * bitrev B (i % 2 ^ B) + i / 2 ^ B := by
  induction B with
  | zero =>
      intro i hi
      interval_cases i <;> simp [bitrev]
  | succ B ih =>
      intro i hi
      have hp2 : (2:ℕ) ^ (B + 2) = 2 ^ (B + 1) * 2 := by rw [pow_succ]
      have hhalf : i / 2 < 2 ^ (B + 1) := by omega
      have e1 : bitrev (B + 2) i = i % 2 * 2 ^ (B + 1) + bitrev (B + 1) (i / 2) := rfl
      rw [e1, ih (i / 2) hhalf]
      have e2 : bitrev (B + 1) (i % 2 ^ (B + 1)) =
          i % 2 ^ (B + 1) % 2 * 2 ^ B + bitrev B (i % 2 ^ (B + 1) / 2) := rfl
      rw [e2]
      have h3 : i % 2 ^ (B + 1) % 2 = i % 2 :=
        Nat.mod_mod_of_dvd i (dvd_pow_self 2 (Nat.succ_ne_zero B))
      have h4 : i % 2 ^ (B + 1) / 2 = i / 2 % 2 ^ B := by
        have hq : (2:ℕ) ^ (B + 1) = 2 * 2 ^ B := by rw [pow_succ']
        rw [hq, Nat.mod_mul_right_div_self]
      have h5 : i / 2 / 2 ^ B = i / 2 ^ (B + 1) := by
        rw [Nat.div_div_eq_div_mul, ← pow_succ']
      rw [h3, h4, h5]
      ring

theorem bitrev_bitrev (B : ℕ) : ∀ i, i < 2 ^ B → bitrev B (bitrev B i) = i := by
  induction B with
  | zero =>
      intro i hi
      interval_cases i
      simp [bitrev]
  | succ B ih =>
      intro i hi
      have hr : bitrev B (i / 2) < 2 ^ B := bitrev_lt B (i / 2)
      have hv : bitrev (B + 1) i < 2 ^ (B + 1) := bitrev_lt (B + 1) i
      have e1 : bitrev (B + 1) i = i % 2 * 2 ^ B + bitrev B (i / 2) := rfl
      have hPpos : 0 < 2 ^ B := pow_pos (by omega) B
      have hc2 : i % 2 = 0 ∨ i % 2 = 1 := by omega
      have h2 : bitrev (B + 1) i % 2 ^ B = bitrev B (i / 2) := by
        rw [e1, Nat.mul_comm (i % 2) (2 ^ B), Nat.mul_add_mod, Nat.mod_eq_of_lt hr]
      have h3 : bitrev (B + 1) i / 2 ^ B = i % 2 := by
        rcases hc2 with hc | hc
        · rw [e1, hc]
          simpa using Nat.div_eq_of_lt hr
        · rw [e1, hc, one_mul]
          rw [show (2:ℕ) ^ B + bitrev B (i / 2) = 2 ^ B * 1 + bitrev B (i / 2) by ring]
          rw [Nat.mul_add_div hPpos, Nat.div_eq_of_lt hr]
      have hhalf : i / 2 < 2 ^ B := by
        have hp : (2:ℕ) ^ (B + 1) = 2 ^ B * 2 := by rw [pow_succ]
        omega
      rw [bitrev_shift B _ hv, h2, h3, ih (i / 2) hhalf]
      omega

theorem scrambleNext_bitrev (B : ℕ) : ∀ i, i + 1 < 2 ^ (B + 1) →
    scrambleNext (bitrev (B + 1) i) (2 ^ B) = bitrev (B + 1) (i + 1) := by
  induction B with
  | zero =>
      intro i hi
      have hi0 : i = 0 := by omega
      subst hi0
      rw [scrambleNext]
      simp [bitrev]
  | succ B ih =>
      intro i hi
      have e1 : bitrev (B + 2) i = i % 2 * 2 ^ (B + 1) + bitrev (B + 1) (i / 2) := rfl
      have hr : bitrev (B + 1) (i / 2) < 2 ^ (B + 1) := bitrev_lt _ _
      rcases Nat.even_or_odd i with he | ho
      · have h2 : i % 2 = 0 := Nat.even_iff.mp he
        have hjlt : bitrev (B + 2) i < 2 ^ (B + 1) := by
          rw [e1, h2]
          simpa using hr
        have hcond : ¬(2 ≤ 2 ^ (B + 1) ∧ 2 ^ (B + 1) ≤ bitrev (B + 2) i) := by omega
        rw [scrambleNext, dif_neg hcond]
        have e2 : bitrev (B + 2) (i + 1) =
            (i + 1) % 2 * 2 ^ (B + 1) + bitrev (B + 1) ((i + 1) / 2) := rfl
        have h3 : (i + 1) % 2 = 1 := by omega
        have h4 : (i + 1) / 2 = i / 2 := by omega
        rw [e1, e2, h2, h3, h4]
        ring
      · have h2 : i % 2 = 1 := Nat.odd_iff.mp ho
        have hm2 : (2:ℕ) ≤ 2 ^ (B + 1) := by
          calc (2:ℕ) = 2 ^ 1 := (pow_one 2).symm
          _ ≤ 2 ^ (B + 1) := Nat.pow_le_pow_right (by omega) (by omega)
        have hjge : 2 ^ (B + 1) ≤ bitrev (B + 2) i := by
          rw [e1, h2]
          omega
        rw [scrambleNext, dif_pos ⟨hm2, hjge⟩]
        have h5 : bitrev (B + 2) i - 2 ^ (B + 1) = bitrev (B + 1) (i / 2) := by
          rw [e1, h2]
          omega
        have h6 : (2:ℕ) ^ (B + 1) / 2 = 2 ^ B := by
          have hp : (2:ℕ) ^ (B + 1) = 2 * 2 ^ B := by rw [pow_succ']
          omega
        have hhalf2 : i / 2 + 1 < 2 ^ (B + 1) := by
          have hp : (2:ℕ) ^ (B + 2) = 2 * 2 ^ (B + 1) := by rw [pow_succ']
          omega
        rw [h5, h6, ih (i / 2) hhalf2]
        have e2 : bitrev (B + 2) (i + 1) =
            (i + 1) % 2 * 2 ^ (B + 1) + bitrev (B + 1) ((i + 1) / 2) := rfl
        have h7 : (i + 1) % 2 = 0 := by omega
        have h8 : (i + 1) / 2 = i / 2 + 1 := by omega
        rw [e2, h7, h8]
        ring

theorem scramble_inv {α : Type} (B : ℕ) (d : ℕ → α) :
    ∀ i, i ≤ 2 ^ B →
      (∀ p, ((List.range i).foldl (scrambleStep (2 ^ B)) (d, 0)).1 p =
        if p < i ∧ bitrev B p < i then d (bitrev B p) else d p) ∧
      (i < 2 ^ B → ((List.range i).foldl (scrambleStep (2 ^ B)) (d, 0)).2 = bitrev B i) := by
  intro i
  induction i with
  | zero =>
      intro _
      refine ⟨fun p => by simp, fun _ => ?_⟩
      simp [bitrev_zero]
  | succ i ih =>
      intro hi
      have hiN : i < 2 ^ B := by omega
      obtain ⟨hd, hj⟩ := ih (le_of_lt hiN)
      have hjv := hj hiN
      have hbi : bitrev B i < 2 ^ B := bitrev_lt B i
      have hbbi : bitrev B (bitrev B i) = i := bitrev_bitrev B i hiN
      rw [List.range_succ, List.foldl_append, List.foldl_cons, List.foldl_nil]
      set st := (List.range i).foldl (scrambleStep (2 ^ B)) (d, 0)
      constructor
      · intro p
        show (if st.2 < i then swapF st.1 i st.2 else st.1) p = _
        rw [hjv]
        by_cases hswap : bitrev B i < i
        · rw [if_pos hswap]
          show (if p = i then st.1 (bitrev B i) else
            if p = bitrev B i then st.1 i else st.1 p) = _
          by_cases hp1 : p = i
          · subst hp1
            rw [if_pos rfl]
            simp only [hd]
            rw [hbbi]
            split_ifs <;> first | rfl | omega
          · rw [if_neg hp1]
            by_cases hp2 : p = bitrev B i
            · subst hp2
              rw [if_pos rfl]
              simp only [hd]
              rw [hbbi]
              split_ifs <;> first | rfl | omega
            · rw [if_neg hp2]
              by_cases hpN : p < 2 ^ B
              · have hbbp := bitrev_bitrev B p hpN
                have hne : bitrev B p ≠ i := fun hcon => hp2 (by rw [← hcon, hbbp])
                simp only [hd]
                split_ifs <;> first | rfl | omega
              · simp only [hd]
                split_ifs <;> first | rfl | omega
        · rw [if_neg hswap]
          simp only [hd]
          by_cases hp1 : p = i
          · subst hp1
            by_cases hbe : bitrev B p = p
            · rw [hbe]
              split_ifs <;> first | rfl | omega
            · split_ifs <;> first | rfl | omega
          · by_cases hpN : p < 2 ^ B
            · have hbbp := bitrev_bitrev B p hpN
              by_cases hp2 : bitrev B p = i
              · have hpv : p = bitrev B i := by rw [← hp2, hbbp]
                rw [hp2]
                split_ifs <;> first | rfl | omega
              · split_ifs <;> first | rfl | omega
            · split_ifs <;> first | rfl | omega
      · intro hi1
        show scrambleNext st.2 (2 ^ B / 2) = bitrev B (i + 1)
        rcases B with _ | B'
        · exfalso
          have : (2:ℕ) ^ 0 = 1 := pow_zero 2
          omega
        · have h6 : (2:ℕ) ^ (B' + 1) / 2 = 2 ^ B' := by
            have hp : (2:ℕ) ^ (B' + 1) = 2 * 2 ^ B' := by rw [pow_succ']
            omega
          rw [hjv, h6]
          exact scrambleNext_bitrev B' i hi1

theorem scramble_perm {α : Type} (B : ℕ) (d : ℕ → α) (p : ℕ)
    (hp : p < 2 ^ B) :
    scramble (2 ^ B) d (bitrev B p) = d p := by
  obtain ⟨hd, _⟩ := scramble_inv B d (2 ^ B) le_rfl
  have hq : bitrev B p < 2 ^ B := bitrev_lt B p
  have hbb : bitrev B (bitrev B p) = p := bitrev_bitrev B p hp
  show ((List.range (2 ^ B)).foldl (scrambleStep (2 ^ B)) (d, 0)).1 (bitrev B p) = d p
  rw [hd (bitrev B p), if_pos ⟨hq, by rw [hbb]; exact hp⟩, hbb]

/-- C8: `scramble` applies the bit-reversal permutation to the `N = 2^B` input
slots: after the pass, the element originally at index `p` resides at the
index obtained by reversing the `B` bits of `p`, for every `p < N`. -/
theorem scramble_moves_to_bitrev {α : Type} (B : ℕ) (d : ℕ → α) (p : ℕ)
    (hp : p < 2 ^ B) :
    scramble (2 ^ B) d (bitrev B p) = d p :=
  scramble_perm B d p hp

theorem scramble_moves_to_bitrev_witness :
    1 < 2 ^ 3 ∧ scramble (2 ^ 3) (fun n => n) (bitrev 3 1) = 1 :=
  ⟨by decide, scramble_moves_to_bitrev 3 (fun n => n) 1 (by decide)⟩

/-! ### SSE FFT data path (sse_fft_context.h), BITS = 3

Machine single-precision complex values are modelled by exact rational pairs.
For `BITS = 3` (`N = 8`, `SSE_DIV = 4`, `SSE_N = 2`, `SSE_N / 2 = 1`) both
butterfly calls in `fft()` / `ifft()` resolve to the
`sse_danielson_lanczos<1, float>` base case, whose scalar 4-point butterfly
uses only the exact twiddle units 1 and ±i, so the whole data path is exact
rational arithmetic. -/

/-- Complex value with exact rational components, standing in for
`std::complex<float>`. -/
structure QC where
  re : ℚ
  im : ℚ
  deriving DecidableEq

instance : Add QC := ⟨fun a b => ⟨a.re + b.re, a.im + b.im⟩⟩

instance : Sub QC := ⟨fun a b => ⟨a.re - b.re, a.im - b.im⟩⟩

instance : Mul QC := ⟨fun a b => ⟨a.re * b.re - a.im * b.im, a.re * b.im + a.im * b.re⟩⟩

@[simp] theorem QC.add_def (a b : QC) : a + b = ⟨a.re + b.re, a.im + b.im⟩ := rfl

@[simp] theorem QC.sub_def (a b : QC) : a - b = ⟨a.re - b.re, a.im - b.im⟩ := rfl

@[simp] theorem QC.mul_def (a b : QC) :
    a * b = ⟨a.re * b.re - a.im * b.im, a.re * b.im + a.im * b.re⟩ := rfl

/-- The two combine passes of the scalar `danielson_lanczos<4, T>::apply` on a
block of four complex values stored in bit-reversed order.
Modelled from the spec: the scalar FFT (fft_context.h) is not among the
sources; §4.1 prescribes the Danielson–Lanczos passes, at block length M
pairing (i, i + M/2) and multiplying the upper element by the twiddle
exp(−2πi·SIGN·k/M) before the butterfly. For M = 2 the twiddle is 1; for
M = 4 they are 1 and exp(−2πi·SIGN/4) = −SIGN·i — all exact. -/
def dl4Apply (σ : ℚ) (d : ℕ → QC) : ℕ → QC :=
  let b0 := d 0 + d 1
  let b1 := d 0 - d 1
  let b2 := d 2 + d 3
  let b3 := d 2 - d 3
  let w1 : QC := ⟨0, -σ⟩
  fun n =>
    if n = 0 then b0 + b2
    else if n = 1 then b1 + w1 * b3
    else if n = 2 then b0 - b2
    else if n = 3 then b1 - w1 * b3
    else d n

/-- `sse_danielson_lanczos<1, T>::apply` from sse_fft_context.h, on one vector
pair (four re lanes, four im lanes). Exactly as in the source, both staging
buffers are filled from `*data_re` (`_mm_storeu_ps(re, *data_re);
_mm_storeu_ps(im, *data_re);`), so the `dim` argument is never read; the four
complex values are then handed to the scalar butterfly and the results loaded
back into both vectors. -/
def sseDl1Apply (σ : ℚ) (dre dim : ℕ → ℚ) : (ℕ → ℚ) × (ℕ → ℚ) :=
  let re := dre
  let im := dre
  let data : ℕ → QC := fun i => ⟨re i, im i⟩
  let out := dl4Apply σ data
  (fun i => (out i).re, fun i => (out i).im)

/-- The behaviour the spec demands of the base case ("hands the four
lane-internal complex values — real and imaginary parts — to the scalar
4-point butterfly and back"): the second, spec-following definition for the
refinement claim C2. -/
def specScalarBase (σ : ℚ) (dre dim : ℕ → ℚ) : (ℕ → ℚ) × (ℕ → ℚ) :=
  let data : ℕ → QC := fun i => ⟨dre i, dim i⟩
  let out := dl4Apply σ data
  (fun i => (out i).re, fun i => (out i).im)

/-- Common body of `fft_context<3, float>::fft()` / `ifft()` before the final
1/N scaling: scramble the 8 complex slots, load them as two 4-lane vector
pairs, apply the sse_danielson_lanczos base case to vectors 0 and 1 (the two
`next.apply` calls at offsets 0 and SSE_N/2 = 1), and store back. -/
def fftBody3 (σ : ℚ) (d : ℕ → QC) : ℕ → QC :=
  let s := scramble 8 d
  let p0 := sseDl1Apply σ (fun j => (s j).re) (fun j => (s j).im)
  let p1 := sseDl1Apply σ (fun j => (s (4 + j)).re) (fun j => (s (4 + j)).im)
  fun n => if n < 4 then ⟨p0.1 n, p0.2 n⟩ else ⟨p1.1 (n - 4), p1.2 (n - 4)⟩

/-- `fft_context<3, float>::fft()` from sse_fft_context.h (SIGN = 1). -/
def fft8 (d : ℕ → QC) : ℕ → QC := fftBody3 1 d

/-- `fft_context<3, float>::ifft()` from sse_fft_context.h: the SIGN = −1 pass
followed by dividing every lane by N = 8. -/
def ifft8 (d : ℕ → QC) : ℕ → QC :=
  fun n => ⟨(fftBody3 (-1) d n).re / 8, (fftBody3 (-1) d n).im / 8⟩

/-- Concrete FFT input for C1: x₀[0] = i (the imaginary unit), x₀[n] = 0
otherwise; every component lies in [−1, 1]. -/
def c1x : ℕ → QC := fun n => if n = 0 then ⟨0, 1⟩ else ⟨0, 0⟩

theorem scramble_eval {α : Type} (B : ℕ) (d : ℕ → α) (q : ℕ) (hq : q < 2 ^ B) :
    scramble (2 ^ B) d q = d (bitrev B q) := by
  have h := scramble_perm B d (bitrev B q) (bitrev_lt B q)
  rwa [bitrev_bitrev B q hq] at h

theorem scramble8_pts {α : Type} (d : ℕ → α) :
    scramble 8 d 0 = d 0 ∧ scramble 8 d 1 = d 4 ∧ scramble 8 d 2 = d 2 ∧
    scramble 8 d 3 = d 6 ∧ scramble 8 d 4 = d 1 ∧ scramble 8 d 5 = d 5 ∧
    scramble 8 d 6 = d 3 ∧ scramble 8 d 7 = d 7 := by
  have h : ∀ q, q < 8 → scramble 8 d q = d (bitrev 3 q) :=
    fun q hq => scramble_eval 3 d q (by omega)
  refine ⟨?_, ?_, ?_, ?_, ?_, ?_, ?_, ?_⟩
  · rw [h 0 (by omega), (by decide : bitrev 3 0 = 0)]
  · rw [h 1 (by omega), (by decide : bitrev 3 1 = 4)]
  · rw [h 2 (by omega), (by decide : bitrev 3 2 = 2)]
  · rw [h 3 (by omega), (by decide : bitrev 3 3 = 6)]
  · rw [h 4 (by omega), (by decide : bitrev 3 4 = 1)]
  · rw [h 5 (by omega), (by decide : bitrev 3 5 = 5)]
  · rw [h 6 (by omega), (by decide : bitrev 3 6 = 3)]
  · rw [h 7 (by omega), (by decide : bitrev 3 7 = 7)]

theorem fft8_c1x_zero : ∀ q, q < 8 → fft8 c1x q = ⟨0, 0⟩ := by
  intro q hq
  obtain ⟨h0, h1, h2, h3, h4, h5, h6, h7⟩ := scramble8_pts c1x
  interval_cases q <;>
    norm_num [fft8, fftBody3, sseDl1Apply, dl4Apply, h0, h1, h2, h3, h4, h5, h6, h7, c1x]

/-- C1: the FFT round trip fails on the code. On the in-range input
x₀ = (i, 0, …, 0) (N = 8, components in [−1, 1]) the SSE path returns the
all-zero vector: `sse_danielson_lanczos<1>::apply` fills both staging buffers
from `*data_re`, discarding every imaginary lane, so
`inverse(forward(x₀))[0] = 0` while x₀[0] = i — an error of 1, far above the
claimed bound ε·N = 2^(−20)·2^3. -/
theorem ifft_fft_roundtrip_fails :
    ifft8 (fft8 c1x) 0 = ⟨0, 0⟩ ∧ c1x 0 = ⟨0, 1⟩ ∧
    ((1 : ℚ) - 0 > 2 ^ 3 * (1 / 2 ^ 20)) := by
  obtain ⟨h0, h1, h2, h3, h4, h5, h6, h7⟩ := scramble8_pts (fft8 c1x)
  refine ⟨?_, rfl, by norm_num⟩
  norm_num [ifft8, fftBody3, sseDl1Apply, dl4Apply, h0, h1, h2, h3,
    fft8_c1x_zero 0 (by norm_num), fft8_c1x_zero 4 (by norm_num),
    fft8_c1x_zero 2 (by norm_num), fft8_c1x_zero 6 (by norm_num)]

/-- C2: the SSE base case does not hand the lane values correctly to the
scalar 4-point butterfly. On real lanes (0,0,0,0) and imaginary lanes
(1,0,0,0) the code (which loads `*data_re` into both staging buffers)
produces imaginary output lane 0 equal to 0, whereas handing both lane
vectors to the scalar butterfly as the spec demands produces 1 — an exact
disagreement, not a 1-ulp rounding difference. -/
theorem sse_base_case_mismatch :
    (sseDl1Apply 1 (fun _ => 0) (fun n => if n = 0 then 1 else 0)).2 0 = 0 ∧
    (specScalarBase 1 (fun _ => 0) (fun n => if n = 0 then 1 else 0)).2 0 = 1 ∧
    ((0 : ℚ) ≠ 1) := by
  refine ⟨?_, ?_, by norm_num⟩ <;> norm_num [sseDl1Apply, specScalarBase, dl4Apply]

/-! ### MDCT kernel (mdct_context.h)

`mdct_context<BITS>` holds `N = 2^BITS` real samples and an internal
`fft_context<BITS − 2>` of length `N4 = N/4`; `M = N/2`. The float data path
is modelled over ℝ, the internal complex buffer over ℂ; `std::polar(1, θ)` is
`exp(θ·i)`. The internal scalar FFT (fft_context.h) is not among the sources
and is modelled from the spec as the plain forward DFT. -/

/-- Angle `2π(t + 0.125)/N` of the pre/post rotation twiddles, N = 2^B. -/
noncomputable def mdctAngle (B t : ℕ) : ℝ :=
  2 * Real.pi * ((t : ℝ) + 1 / 8) / 2 ^ B

/-- The twiddle `a = std::polar(1, 2π(t + 0.125)/N)` of mdct_context.h. -/
noncomputable def mdctTw (B t : ℕ) : ℂ :=
  Complex.exp ((mdctAngle B t : ℝ) * Complex.I)

/-- Forward DFT used by both mdct branches via `fft.fft(false)`.
Modelled from the spec: fft_context.h is not among the sources; §4.1 gives
`forward(x)[k] = Σ x[n]·exp(−2πi·kn/N)`. -/
noncomputable def dftc (n : ℕ) (f : ℕ → ℂ) (k : ℕ) : ℂ :=
  ∑ t in Finset.range n,
    f t * Complex.exp (((-(2 * Real.pi * ((k : ℝ) * t) / n) : ℝ)) * Complex.I)

/-- The `rotate` array of the forward branch of `mdct(false)`:
`rotate[t] = −data[t + 3·N4]` for `t < N4` and `rotate[t] = data[t − N4]`
beyond. -/
noncomputable def rotF (B : ℕ) (x : ℕ → ℝ) (t : ℕ) : ℝ :=
  if t < 2 ^ (B - 2) then -x (t + 3 * 2 ^ (B - 2)) else x (t - 2 ^ (B - 2))

/-- The folded real part `re = (rotate[2t] − rotate[N−1−2t]) / 2` of the
forward branch. -/
noncomputable def foldRe (B : ℕ) (x : ℕ → ℝ) (t : ℕ) : ℝ :=
  (rotF B x (2 * t) - rotF B x (2 ^ B - 1 - 2 * t)) / 2

/-- The folded imaginary part `im = (rotate[M+2t] − rotate[M−1−2t]) / −2` of
the forward branch. -/
noncomputable def foldIm (B : ℕ) (x : ℕ → ℝ) (t : ℕ) : ℝ :=
  (rotF B x (2 ^ (B - 1) + 2 * t) - rotF B x (2 ^ (B - 1) - 1 - 2 * t)) / (-2)

/-- The complex FFT input of the forward branch:
`fft.data[t] = (re·a.re + im·a.im, −re·a.im + im·a.re)`. -/
noncomputable def preF (B : ℕ) (x : ℕ → ℝ) (t : ℕ) : ℂ :=
  ⟨foldRe B x t * (mdctTw B t).re + foldIm B x t * (mdctTw B t).im,
   -(foldRe B x t * (mdctTw B t).im) + foldIm B x t * (mdctTw B t).re⟩

/-- The post-rotated, scaled FFT output of the forward branch (the complex
value written back into `fft.data[t]`, scale `2/√N`). -/
noncomputable def postF (B : ℕ) (x : ℕ → ℝ) (t : ℕ) : ℂ :=
  let f := dftc (2 ^ (B - 2)) (preF B x) t
  let a := mdctTw B t
  ⟨2 / Real.sqrt (2 ^ B) * (f.re * a.re + f.im * a.im),
   2 / Real.sqrt (2 ^ B) * (-(f.re * a.im) + f.im * a.re)⟩

/-- `mdct_context::mdct(false)` from mdct_context.h: the N/2 coefficients
`data[2t] = f.re`, `data[M−1−2t] = −f.im` (t < N4); slots from M on keep
their previous contents. -/
noncomputable def mdctF (B : ℕ) (x : ℕ → ℝ) (n : ℕ) : ℝ :=
  if n < 2 ^ (B - 1) then
    if n % 2 = 0 then (postF B x (n / 2)).re
    else -((postF B x ((2 ^ (B - 1) - 1 - n) / 2)).im)
  else x n

/-- The complex FFT input of the inverse branch of `mdct(true)`:
`re = data[2t]/2`, `im = data[M−1−2t]/2`, rotated by the same twiddle. -/
noncomputable def preI (B : ℕ) (y : ℕ → ℝ) (t : ℕ) : ℂ :=
  ⟨y (2 * t) / 2 * (mdctTw B t).re + y (2 ^ (B - 1) - 1 - 2 * t) / 2 * (mdctTw B t).im,
   -(y (2 * t) / 2 * (mdctTw B t).im) + y (2 ^ (B - 1) - 1 - 2 * t) / 2 * (mdctTw B t).re⟩

/-- The post-rotated, scaled FFT output of the inverse branch (scale `8/√N`). -/
noncomputable def postI (B : ℕ) (y : ℕ → ℝ) (t : ℕ) : ℂ :=
  let g := dftc (2 ^ (B - 2)) (preI B y) t
  let a := mdctTw B t
  ⟨8 / Real.sqrt (2 ^ B) * (g.re * a.re + g.im * a.im),
   8 / Real.sqrt (2 ^ B) * (-(g.re * a.im) + g.im * a.re)⟩

/-- The even slots of the inverse branch's `rotate` array:
`rotate[2t] = G[t].re`, `rotate[M+2t] = G[t].im`. -/
noncomputable def rotIeven (B : ℕ) (y : ℕ → ℝ) (u : ℕ) : ℝ :=
  if u < 2 ^ (B - 1) then (postI B y (u / 2)).re
  else (postI B y ((u - 2 ^ (B - 1)) / 2)).im

/-- The inverse branch's `rotate` array: odd slots are filled by the loop
`rotate[t] = −rotate[N−t−1]`. -/
noncomputable def rotI (B : ℕ) (y : ℕ → ℝ) (u : ℕ) : ℝ :=
  if u % 2 = 0 then rotIeven B y u else -(rotIeven B y (2 ^ B - 1 - u))

/-- `mdct_context::mdct(true)` from mdct_context.h: the final shift
`data[t] = rotate[t + N4]` for `t < 3·N4`, `data[t] = −rotate[t − 3·N4]` for
the rest of the block. -/
noncomputable def mdctI (B : ℕ) (y : ℕ → ℝ) (t : ℕ) : ℝ :=
  if t < 3 * 2 ^ (B - 2) then rotI B y (t + 2 ^ (B - 2))
  else if t < 2 ^ B then -(rotI B y (t - 3 * 2 ^ (B - 2)))
  else 0

/-- The sine window `W[i] = sin(π(i + 0.5)/N)` named by the spec. -/
noncomputable def sineWindow (N i : ℕ) : ℝ :=
  Real.sin (Real.pi * ((i : ℝ) + 1 / 2) / N)

theorem conj_expI (a : ℝ) :
    (starRingEnd ℂ) (Complex.exp ((a : ℝ) * Complex.I)) =
    Complex.exp (((-a : ℝ)) * Complex.I) := by
  rw [← Complex.exp_conj]
  congr 1
  simp

theorem expI_add (a b : ℝ) :
    Complex.exp ((a : ℝ) * Complex.I) * Complex.exp ((b : ℝ) * Complex.I) =
    Complex.exp (((a + b : ℝ)) * Complex.I) := by
  rw [← Complex.exp_add]
  congr 1
  push_cast
  ring

theorem expI_pow (a : ℝ) (t : ℕ) :
    Complex.exp ((a : ℝ) * Complex.I) ^ t =
    Complex.exp (((t * a : ℝ)) * Complex.I) := by
  rw [← Complex.exp_nat_mul]
  congr 1
  push_cast
  ring

theorem expI_mul_conj (a : ℝ) :
    Complex.exp ((a : ℝ) * Complex.I) *
      (starRingEnd ℂ) (Complex.exp ((a : ℝ) * Complex.I)) = 1 := by
  rw [Complex.mul_conj, Complex.normSq_eq_abs, Complex.abs_exp_ofReal_mul_I]
  norm_num

theorem mdctTw_mul_conj (B t : ℕ) :
    mdctTw B t * (starRingEnd ℂ) (mdctTw B t) = 1 :=
  expI_mul_conj (mdctAngle B t)

theorem sum_expI_cycle (n : ℕ) (s k : ℕ) (hs : s < n) (hk : k < n) :
    ∑ t in Finset.range n,
      Complex.exp (((((s : ℝ) - k) * t * (2 * Real.pi) / n) : ℝ) * Complex.I) =
    if s = k then (n : ℂ) else 0 := by
  have hn : 0 < n := by omega
  have hn' : (n : ℝ) ≠ 0 := by positivity
  have hnr : (0 : ℝ) < n := by positivity
  by_cases hsk : s = k
  · subst hsk
    rw [if_pos rfl]
    have hterm : ∀ t ∈ Finset.range n,
        Complex.exp (((((s : ℝ) - s) * t * (2 * Real.pi) / n) : ℝ) * Complex.I) = 1 := by
      intro t _
      simp
    rw [Finset.sum_congr rfl hterm]
    simp
  · rw [if_neg hsk]
    have hterm : ∀ t ∈ Finset.range n,
        Complex.exp (((((s : ℝ) - k) * t * (2 * Real.pi) / n) : ℝ) * Complex.I) =
        Complex.exp (((((s : ℝ) - k) * (2 * Real.pi) / n) : ℝ) * Complex.I) ^ t := by
      intro t _
      rw [expI_pow]
      congr 2
      ring
    rw [Finset.sum_congr rfl hterm]
    have hzn : Complex.exp (((((s : ℝ) - k) * (2 * Real.pi) / n) : ℝ) * Complex.I) ^ n = 1 := by
      rw [expI_pow]
      have harg : ((n : ℝ) * (((s : ℝ) - k) * (2 * Real.pi) / n) : ℝ) =
          ((s : ℝ) - k) * (2 * Real.pi) := by
        field_simp
      rw [harg]
      have hcast : ((((s : ℝ) - k) * (2 * Real.pi) : ℝ) : ℂ) * Complex.I =
          (((s : ℤ) - (k : ℤ) : ℤ) : ℂ) * (2 * (Real.pi : ℂ) * Complex.I) := by
        push_cast
        ring
      rw [hcast, Complex.exp_int_mul_two_pi_mul_I]
    have hz1 : Complex.exp (((((s : ℝ) - k) * (2 * Real.pi) / n) : ℝ) * Complex.I) ≠ 1 := by
      intro hcon
      rw [Complex.exp_eq_one_iff] at hcon
      obtain ⟨m, hm⟩ := hcon
      have hre := congrArg Complex.im hm
      simp [Complex.mul_im] at hre
      have hre2 : ((s : ℝ) - k) * (2 * Real.pi) = (m : ℝ) * (2 * Real.pi) * n := by
        field_simp at hre
        linarith [hre]
      have hmn : (s : ℝ) - k = (m : ℝ) * n := by
        have h2 : ((s : ℝ) - k) * (2 * Real.pi) = ((m : ℝ) * n) * (2 * Real.pi) := by
          rw [hre2]
          ring
        exact mul_right_cancel₀ (by positivity) h2
      have hsr : (s : ℝ) < n := by exact_mod_cast hs
      have hkr : (k : ℝ) < n := by exact_mod_cast hk
      have hs0 : (0 : ℝ) ≤ (s : ℝ) := Nat.cast_nonneg s
      have hk0 : (0 : ℝ) ≤ (k : ℝ) := Nat.cast_nonneg k
      have hmz : m = 0 := by
        rcases lt_trichotomy m 0 with h | h | h
        · exfalso
          have hm1 : (m : ℝ) ≤ -1 := by
            have : m ≤ -1 := by omega
            exact_mod_cast this
          have hb := mul_le_mul_of_nonneg_right hm1 (le_of_lt hnr)
          linarith
        · exact h
        · exfalso
          have hm1 : (1 : ℝ) ≤ (m : ℝ) := by exact_mod_cast h
          have hb := mul_le_mul_of_nonneg_right hm1 (le_of_lt hnr)
          linarith
      rw [hmz] at hmn
      simp at hmn
      have hske : (s : ℝ) = k := by linarith
      exact hsk (by exact_mod_cast hske)
    rw [geom_sum_eq hz1, hzn]
    simp

theorem dftc_conj_dftc (n : ℕ) (f : ℕ → ℂ) (k : ℕ) (hk : k < n) :
    dftc n (fun t => (starRingEnd ℂ) (dftc n f t)) k =
    (n : ℂ) * (starRingEnd ℂ) (f k) := by
  have hstep : ∀ t : ℕ, (starRingEnd ℂ) (dftc n f t) *
      Complex.exp (((-(2 * Real.pi * ((k : ℝ) * t) / n) : ℝ)) * Complex.I) =
      ∑ s in Finset.range n, (starRingEnd ℂ) (f s) *
        Complex.exp (((((s : ℝ) - k) * t * (2 * Real.pi) / n) : ℝ) * Complex.I) := by
    intro t
    rw [dftc, map_sum, Finset.sum_mul]
    refine Finset.sum_congr rfl fun s _ => ?_
    rw [map_mul, conj_expI, mul_assoc, expI_add]
    congr 2
    ring
  rw [dftc]
  rw [Finset.sum_congr rfl fun t _ => hstep t]
  rw [Finset.sum_comm]
  have hinner : ∀ s ∈ Finset.range n,
      (∑ t in Finset.range n, (starRingEnd ℂ) (f s) *
        Complex.exp (((((s : ℝ) - k) * t * (2 * Real.pi) / n) : ℝ) * Complex.I)) =
      if s = k then (starRingEnd ℂ) (f s) * n else 0 := by
    intro s hs
    rw [← Finset.mul_sum, sum_expI_cycle n s k (Finset.mem_range.mp hs) hk]
    by_cases hsk : s = k
    · rw [if_pos hsk, if_pos hsk]
    · rw [if_neg hsk, if_neg hsk, mul_zero]
  rw [Finset.sum_congr rfl hinner]
  rw [Finset.sum_ite_eq' (Finset.range n) k (fun s => (starRingEnd ℂ) (f s) * n)]
  rw [if_pos (Finset.mem_range.mpr hk)]
  ring

theorem preF_eq (B : ℕ) (x : ℕ → ℝ) (t : ℕ) :
    preF B x t = (⟨foldRe B x t, foldIm B x t⟩ : ℂ) * (starRingEnd ℂ) (mdctTw B t) := by
  apply Complex.ext <;> simp [preF, Complex.mul_re, Complex.mul_im] <;> ring

theorem postF_eq (B : ℕ) (x : ℕ → ℝ) (t : ℕ) :
    postF B x t = ((2 / Real.sqrt (2 ^ B) : ℝ) : ℂ) *
      (dftc (2 ^ (B - 2)) (preF B x) t * (starRingEnd ℂ) (mdctTw B t)) := by
  apply Complex.ext <;> simp [postF, Complex.mul_re, Complex.mul_im] <;> ring

theorem postI_eq (B : ℕ) (y : ℕ → ℝ) (t : ℕ) :
    postI B y t = ((8 / Real.sqrt (2 ^ B) : ℝ) : ℂ) *
      (dftc (2 ^ (B - 2)) (preI B y) t * (starRingEnd ℂ) (mdctTw B t)) := by
  apply Complex.ext <;> simp [postI, Complex.mul_re, Complex.mul_im] <;> ring

theorem mdctF_even (B : ℕ) (x : ℕ → ℝ) (t : ℕ) (hB : 2 ≤ B) (ht : t < 2 ^ (B - 2)) :
    mdctF B x (2 * t) = (postF B x t).re := by
  have hM : (2:ℕ) ^ (B - 1) = 2 * 2 ^ (B - 2) := by
    have e : B - 1 = B - 2 + 1 := by omega
    rw [e, pow_succ']
  simp only [mdctF]
  rw [if_pos (by omega), if_pos (by omega)]
  have e2 : 2 * t / 2 = t := by omega
  rw [e2]

theorem mdctF_odd (B : ℕ) (x : ℕ → ℝ) (t : ℕ) (hB : 2 ≤ B) (ht : t < 2 ^ (B - 2)) :
    mdctF B x (2 ^ (B - 1) - 1 - 2 * t) = -((postF B x t).im) := by
  have hM : (2:ℕ) ^ (B - 1) = 2 * 2 ^ (B - 2) := by
    have e : B - 1 = B - 2 + 1 := by omega
    rw [e, pow_succ']
  simp only [mdctF]
  rw [if_pos (by omega), if_neg (by omega)]
  have e2 : (2 ^ (B - 1) - 1 - (2 ^ (B - 1) - 1 - 2 * t)) / 2 = t := by omega
  rw [e2]

theorem two_mul_preI (B : ℕ) (x : ℕ → ℝ) (t : ℕ) (hB : 2 ≤ B) (ht : t < 2 ^ (B - 2)) :
    (2 : ℂ) * preI B (mdctF B x) t =
      (starRingEnd ℂ) (postF B x t) * (starRingEnd ℂ) (mdctTw B t) := by
  have he := mdctF_even B x t hB ht
  have ho := mdctF_odd B x t hB ht
  apply Complex.ext <;>
    simp [preI, he, ho, Complex.mul_re, Complex.mul_im] <;> ring

theorem preI_scaled (B : ℕ) (x : ℕ → ℝ) (t : ℕ) (hB : 2 ≤ B) (ht : t < 2 ^ (B - 2)) :
    (2 : ℂ) * preI B (mdctF B x) t =
      ((2 / Real.sqrt (2 ^ B) : ℝ) : ℂ) *
        (starRingEnd ℂ) (dftc (2 ^ (B - 2)) (preF B x) t) := by
  rw [two_mul_preI B x t hB ht, postF_eq]
  rw [map_mul, map_mul, Complex.conj_conj, Complex.conj_ofReal]
  linear_combination (((2 / Real.sqrt (2 ^ B) : ℝ) : ℂ) *
    (starRingEnd ℂ) (dftc (2 ^ (B - 2)) (preF B x) t)) * mdctTw_mul_conj B t

theorem dftc_preI_eq (B : ℕ) (x : ℕ → ℝ) (k : ℕ) (hB : 2 ≤ B) (hk : k < 2 ^ (B - 2)) :
    (2 : ℂ) * dftc (2 ^ (B - 2)) (preI B (mdctF B x)) k =
      ((2 / Real.sqrt (2 ^ B) : ℝ) : ℂ) * ((2 ^ (B - 2) : ℕ) : ℂ) *
        (starRingEnd ℂ) (preF B x k) := by
  calc (2 : ℂ) * dftc (2 ^ (B - 2)) (preI B (mdctF B x)) k
      = ∑ t in Finset.range (2 ^ (B - 2)),
          ((2 : ℂ) * preI B (mdctF B x) t) *
            Complex.exp (((-(2 * Real.pi * ((k : ℝ) * t) / (2 ^ (B - 2) : ℕ)) : ℝ)) *
              Complex.I) := by
        rw [dftc, Finset.mul_sum]
        exact Finset.sum_congr rfl fun t _ => by ring
    _ = ∑ t in Finset.range (2 ^ (B - 2)),
          (((2 / Real.sqrt (2 ^ B) : ℝ) : ℂ) *
            (starRingEnd ℂ) (dftc (2 ^ (B - 2)) (preF B x) t)) *
            Complex.exp (((-(2 * Real.pi * ((k : ℝ) * t) / (2 ^ (B - 2) : ℕ)) : ℝ)) *
              Complex.I) := by
        refine Finset.sum_congr rfl fun t ht => ?_
        rw [preI_scaled B x t hB (Finset.mem_range.mp ht)]
    _ = ((2 / Real.sqrt (2 ^ B) : ℝ) : ℂ) *
          ∑ t in Finset.range (2 ^ (B - 2)),
            (starRingEnd ℂ) (dftc (2 ^ (B - 2)) (preF B x) t) *
              Complex.exp (((-(2 * Real.pi * ((k : ℝ) * t) / (2 ^ (B - 2) : ℕ)) : ℝ)) *
                Complex.I) := by
        rw [Finset.mul_sum]
        exact Finset.sum_congr rfl fun t _ => by ring
    _ = ((2 / Real.sqrt (2 ^ B) : ℝ) : ℂ) *
          dftc (2 ^ (B - 2)) (fun t => (starRingEnd ℂ) (dftc (2 ^ (B - 2)) (preF B x) t)) k := by
        rw [dftc]
    _ = ((2 / Real.sqrt (2 ^ B) : ℝ) : ℂ) *
          (((2 ^ (B - 2) : ℕ) : ℂ) * (starRingEnd ℂ) (preF B x k)) := by
        rw [dftc_conj_dftc (2 ^ (B - 2)) (preF B x) k hk]
    _ = ((2 / Real.sqrt (2 ^ B) : ℝ) : ℂ) * ((2 ^ (B - 2) : ℕ) : ℂ) *
          (starRingEnd ℂ) (preF B x k) := by ring

theorem postI_collapse (B : ℕ) (x : ℕ → ℝ) (k : ℕ) (hB : 2 ≤ B) (hk : k < 2 ^ (B - 2)) :
    postI B (mdctF B x) k =
      2 * (starRingEnd ℂ) (⟨foldRe B x k, foldIm B x k⟩ : ℂ) := by
  have h1 := dftc_preI_eq B x k hB hk
  have hpost := postI_eq B (mdctF B x) k
  have h2post : (2 : ℂ) * postI B (mdctF B x) k =
      ((8 / Real.sqrt (2 ^ B) : ℝ) : ℂ) *
        (((2 : ℂ) * dftc (2 ^ (B - 2)) (preI B (mdctF B x)) k) *
          (starRingEnd ℂ) (mdctTw B k)) := by
    rw [hpost]
    ring
  rw [h1] at h2post
  rw [preF_eq B x k, map_mul, Complex.conj_conj] at h2post
  have hunit := mdctTw_mul_conj B k
  have h3 : (2 : ℂ) * postI B (mdctF B x) k =
      (((8 / Real.sqrt (2 ^ B) : ℝ) : ℂ) * ((2 / Real.sqrt (2 ^ B) : ℝ) : ℂ) *
        ((2 ^ (B - 2) : ℕ) : ℂ)) *
        (starRingEnd ℂ) (⟨foldRe B x k, foldIm B x k⟩ : ℂ) := by
    linear_combination h2post +
      (((8 / Real.sqrt (2 ^ B) : ℝ) : ℂ) * ((2 / Real.sqrt (2 ^ B) : ℝ) : ℂ) *
        ((2 ^ (B - 2) : ℕ) : ℂ) *
        (starRingEnd ℂ) (⟨foldRe B x k, foldIm B x k⟩ : ℂ)) * hunit
  have hral : (8 / Real.sqrt (2 ^ B) : ℝ) * (2 / Real.sqrt (2 ^ B)) *
      ((2 ^ (B - 2) : ℕ) : ℝ) = 4 := by
    have hss : Real.sqrt (2 ^ B) * Real.sqrt (2 ^ B) = 2 ^ B :=
      Real.mul_self_sqrt (by positivity)
    have hNr : (2 : ℝ) ^ B = 4 * 2 ^ (B - 2) := by
      calc (2 : ℝ) ^ B = 2 ^ (B - 2 + 2) := by
            congr 1
            omega
        _ = 2 ^ (B - 2) * 2 ^ 2 := pow_add 2 (B - 2) 2
        _ = 4 * 2 ^ (B - 2) := by ring
    have hspos : 0 < Real.sqrt (2 ^ B) := Real.sqrt_pos.mpr (by positivity)
    have hcast : ((2 ^ (B - 2) : ℕ) : ℝ) = (2 : ℝ) ^ (B - 2) := by push_cast; ring
    rw [hcast]
    field_simp
    nlinarith [hss, hNr]
  have hs4 : ((8 / Real.sqrt (2 ^ B) : ℝ) : ℂ) * ((2 / Real.sqrt (2 ^ B) : ℝ) : ℂ) *
      ((2 ^ (B - 2) : ℕ) : ℂ) = 4 := by
    exact_mod_cast congrArg Complex.ofReal hral
  rw [hs4] at h3
  apply mul_left_cancel₀ (two_ne_zero : (2 : ℂ) ≠ 0)
  rw [h3]
  ring

theorem postI_re (B : ℕ) (x : ℕ → ℝ) (k : ℕ) (hB : 2 ≤ B) (hk : k < 2 ^ (B - 2)) :
    (postI B (mdctF B x) k).re = 2 * foldRe B x k := by
  rw [postI_collapse B x k hB hk]
  simp [Complex.mul_re]

theorem postI_im (B : ℕ) (x : ℕ → ℝ) (k : ℕ) (hB : 2 ≤ B) (hk : k < 2 ^ (B - 2)) :
    (postI B (mdctF B x) k).im = -(2 * foldIm B x k) := by
  rw [postI_collapse B x k hB hk]
  simp [Complex.mul_im]

theorem rotIeven_eq (B : ℕ) (x : ℕ → ℝ) (u : ℕ) (hB : 2 ≤ B)
    (hev : u % 2 = 0) (hu : u < 2 ^ B) :
    rotIeven B (mdctF B x) u = rotF B x u - rotF B x (2 ^ B - 1 - u) := by
  have hM : (2:ℕ) ^ (B - 1) = 2 * 2 ^ (B - 2) := by
    have e : B - 1 = B - 2 + 1 := by omega
    rw [e, pow_succ']
  have hN : (2:ℕ) ^ B = 4 * 2 ^ (B - 2) := by
    have e : B = B - 2 + 2 := by omega
    calc (2:ℕ) ^ B = 2 ^ (B - 2 + 2) := by rw [← e]
      _ = 2 ^ (B - 2) * 2 ^ 2 := pow_add 2 _ 2
      _ = 4 * 2 ^ (B - 2) := by ring
  by_cases hlt : u < 2 ^ (B - 1)
  · simp only [rotIeven]
    rw [if_pos hlt]
    rw [postI_re B x (u / 2) hB (by omega)]
    simp only [foldRe]
    have e1 : 2 * (u / 2) = u := by omega
    rw [e1]
    ring
  · simp only [rotIeven]
    rw [if_neg hlt]
    rw [postI_im B x ((u - 2 ^ (B - 1)) / 2) hB (by omega)]
    simp only [foldIm]
    have e1 : 2 ^ (B - 1) + 2 * ((u - 2 ^ (B - 1)) / 2) = u := by omega
    have e2 : 2 ^ (B - 1) - 1 - 2 * ((u - 2 ^ (B - 1)) / 2) = 2 ^ B - 1 - u := by omega
    rw [e1, e2]
    ring

theorem rotI_eq (B : ℕ) (x : ℕ → ℝ) (u : ℕ) (hB : 2 ≤ B) (hu : u < 2 ^ B) :
    rotI B (mdctF B x) u = rotF B x u - rotF B x (2 ^ B - 1 - u) := by
  have hq1 : (1:ℕ) ≤ 2 ^ (B - 2) := Nat.one_le_pow (B - 2) 2 (by omega)
  have hN : (2:ℕ) ^ B = 4 * 2 ^ (B - 2) := by
    have e : B = B - 2 + 2 := by omega
    calc (2:ℕ) ^ B = 2 ^ (B - 2 + 2) := by rw [← e]
      _ = 2 ^ (B - 2) * 2 ^ 2 := pow_add 2 _ 2
      _ = 4 * 2 ^ (B - 2) := by ring
  by_cases hev : u % 2 = 0
  · simp only [rotI]
    rw [if_pos hev]
    exact rotIeven_eq B x u hB hev hu
  · simp only [rotI]
    rw [if_neg hev]
    rw [rotIeven_eq B x (2 ^ B - 1 - u) hB (by omega) (by omega)]
    have e3 : 2 ^ B - 1 - (2 ^ B - 1 - u) = u := by omega
    rw [e3]
    ring

theorem mdct_roundtrip_lt (B : ℕ) (x : ℕ → ℝ) (n : ℕ) (hB : 2 ≤ B)
    (hn : n < 2 ^ (B - 1)) :
    mdctI B (mdctF B x) n = x n - x (2 ^ (B - 1) - 1 - n) := by
  have hM : (2:ℕ) ^ (B - 1) = 2 * 2 ^ (B - 2) := by
    have e : B - 1 = B - 2 + 1 := by omega
    rw [e, pow_succ']
  have hN : (2:ℕ) ^ B = 4 * 2 ^ (B - 2) := by
    have e : B = B - 2 + 2 := by omega
    calc (2:ℕ) ^ B = 2 ^ (B - 2 + 2) := by rw [← e]
      _ = 2 ^ (B - 2) * 2 ^ 2 := pow_add 2 _ 2
      _ = 4 * 2 ^ (B - 2) := by ring
  simp only [mdctI]
  rw [if_pos (by omega)]
  rw [rotI_eq B x (n + 2 ^ (B - 2)) hB (by omega)]
  simp only [rotF]
  rw [if_neg (by omega), if_neg (by omega)]
  have i1 : n + 2 ^ (B - 2) - 2 ^ (B - 2) = n := by omega
  have i2 : 2 ^ B - 1 - (n + 2 ^ (B - 2)) - 2 ^ (B - 2) = 2 ^ (B - 1) - 1 - n := by omega
  rw [i1, i2]

theorem mdct_roundtrip_ge (B : ℕ) (x : ℕ → ℝ) (n : ℕ) (hB : 2 ≤ B)
    (h1 : 2 ^ (B - 1) ≤ n) (h2 : n < 2 ^ B) :
    mdctI B (mdctF B x) n = x n + x (2 ^ B + 2 ^ (B - 1) - 1 - n) := by
  have hM : (2:ℕ) ^ (B - 1) = 2 * 2 ^ (B - 2) := by
    have e : B - 1 = B - 2 + 1 := by omega
    rw [e, pow_succ']
  have hN : (2:ℕ) ^ B = 4 * 2 ^ (B - 2) := by
    have e : B = B - 2 + 2 := by omega
    calc (2:ℕ) ^ B = 2 ^ (B - 2 + 2) := by rw [← e]
      _ = 2 ^ (B - 2) * 2 ^ 2 := pow_add 2 _ 2
      _ = 4 * 2 ^ (B - 2) := by ring
  by_cases h3 : n < 3 * 2 ^ (B - 2)
  · simp only [mdctI]
    rw [if_pos h3]
    rw [rotI_eq B x (n + 2 ^ (B - 2)) hB (by omega)]
    simp only [rotF]
    rw [if_neg (by omega), if_pos (by omega)]
    have i1 : n + 2 ^ (B - 2) - 2 ^ (B - 2) = n := by omega
    have i2 : 2 ^ B - 1 - (n + 2 ^ (B - 2)) + 3 * 2 ^ (B - 2) =
        2 ^ B + 2 ^ (B - 1) - 1 - n := by omega
    rw [i1, i2]
    ring
  · simp only [mdctI]
    rw [if_neg h3, if_pos (by omega)]
    rw [rotI_eq B x (n - 3 * 2 ^ (B - 2)) hB (by omega)]
    simp only [rotF]
    rw [if_pos (by omega), if_neg (by omega)]
    have i1 : n - 3 * 2 ^ (B - 2) + 3 * 2 ^ (B - 2) = n := by omega
    have i2 : 2 ^ B - 1 - (n - 3 * 2 ^ (B - 2)) - 2 ^ (B - 2) =
        2 ^ B + 2 ^ (B - 1) - 1 - n := by omega
    rw [i1, i2]
    ring

theorem sineWindow_PB (B : ℕ) (hB : 1 ≤ B) (n : ℕ) :
    sineWindow (2 ^ B) n ^ 2 + sineWindow (2 ^ B) (n + 2 ^ (B - 1)) ^ 2 = 1 := by
  have hNr : (2 : ℝ) ^ B = 2 * 2 ^ (B - 1) := by
    calc (2 : ℝ) ^ B = 2 ^ (B - 1 + 1) := by
          congr 1
          omega
      _ = 2 * 2 ^ (B - 1) := by rw [pow_succ']
  have hNne : ((2 ^ B : ℕ) : ℝ) ≠ 0 := by positivity
  have harg : Real.pi * (((n + 2 ^ (B - 1) : ℕ) : ℝ) + 1 / 2) / ((2 ^ B : ℕ) : ℝ) =
      Real.pi * ((n : ℝ) + 1 / 2) / ((2 ^ B : ℕ) : ℝ) + Real.pi / 2 := by
    push_cast
    rw [div_add_div _ _ (by positivity : (2:ℝ) ^ B ≠ 0) (by norm_num : (2:ℝ) ≠ 0)]
    rw [div_eq_div_iff (by positivity) (by positivity)]
    rw [hNr]
    ring
  simp only [sineWindow]
  rw [harg, Real.sin_add_pi_div_two]
  exact Real.sin_sq_add_cos_sq _

theorem sineWindow_symm (B : ℕ) (hB : 1 ≤ B) (n : ℕ) (hn : n < 2 ^ B) :
    sineWindow (2 ^ B) n = sineWindow (2 ^ B) (2 ^ B - 1 - n) := by
  have h1 : (1 : ℕ) ≤ 2 ^ B := Nat.one_le_pow _ _ (by omega)
  have hn' : n ≤ 2 ^ B - 1 := by omega
  have hcast : ((2 ^ B - 1 - n : ℕ) : ℝ) = (2 : ℝ) ^ B - 1 - n := by
    rw [Nat.cast_sub hn', Nat.cast_sub h1]
    push_cast
    ring
  simp only [sineWindow]
  rw [hcast]
  have harg : Real.pi * ((2 : ℝ) ^ B - 1 - n + 1 / 2) / ((2 ^ B : ℕ) : ℝ) =
      Real.pi - Real.pi * ((n : ℝ) + 1 / 2) / ((2 ^ B : ℕ) : ℝ) := by
    push_cast
    field_simp
    ring
  rw [harg, Real.sin_pi_sub]

/-- C3 (amended): for every block size N = 2^B with B ≥ 2, `mdct(false)` maps
the N windowed real inputs to N/2 coefficients through the internal DFT of
length N/4, and processing a doubly-infinite signal in 50%-overlapped frames
(window by W, `mdct(false)`, `mdct(true)`, window by W, overlap-add of the two
frames covering each position) reproduces the signal exactly — in exact
arithmetic, hence a fortiori within any ε — provided the analysis/synthesis
window W satisfies the Princen–Bradley condition W[n]² + W[n + N/2]² = 1 and
is in addition symmetric, W[n] = W[N−1−n] (both hold for the sine window). -/
theorem mdct_ola_reconstruction (B : ℕ) (hB : 2 ≤ B) (W : ℕ → ℝ) (s : ℤ → ℝ)
    (hPB : ∀ n, n < 2 ^ (B - 1) → W n ^ 2 + W (n + 2 ^ (B - 1)) ^ 2 = 1)
    (hsym : ∀ n, n < 2 ^ B → W n = W (2 ^ B - 1 - n))
    (j : ℤ) (n : ℕ) (h1 : 2 ^ (B - 1) ≤ n) (h2 : n < 2 ^ B) :
    W n * mdctI B (mdctF B (fun m => W m * s (j * 2 ^ (B - 1) + (m : ℤ)))) n +
      W (n - 2 ^ (B - 1)) *
        mdctI B (mdctF B (fun m => W m * s ((j + 1) * 2 ^ (B - 1) + (m : ℤ))))
          (n - 2 ^ (B - 1)) =
      s (j * 2 ^ (B - 1) + (n : ℤ)) := by
  have hM : (2:ℕ) ^ (B - 1) = 2 * 2 ^ (B - 2) := by
    have e : B - 1 = B - 2 + 1 := by omega
    rw [e, pow_succ']
  have hN : (2:ℕ) ^ B = 4 * 2 ^ (B - 2) := by
    have e : B = B - 2 + 2 := by omega
    calc (2:ℕ) ^ B = 2 ^ (B - 2 + 2) := by rw [← e]
      _ = 2 ^ (B - 2) * 2 ^ 2 := pow_add 2 _ 2
      _ = 4 * 2 ^ (B - 2) := by ring
  have hA := mdct_roundtrip_ge B (fun m => W m * s (j * 2 ^ (B - 1) + (m : ℤ))) n hB h1 h2
  have hBr := mdct_roundtrip_lt B (fun m => W m * s ((j + 1) * 2 ^ (B - 1) + (m : ℤ)))
    (n - 2 ^ (B - 1)) hB (by omega)
  beta_reduce at hA hBr
  rw [hA, hBr]
  have c1 : n - 2 ^ (B - 1) ≤ 2 ^ (B - 1) - 1 := by omega
  have c2 : n ≤ 2 ^ B + 2 ^ (B - 1) - 1 := by omega
  have c3 : (1:ℕ) ≤ 2 ^ (B - 1) := Nat.one_le_pow _ _ (by omega)
  have c4 : (1:ℕ) ≤ 2 ^ B + 2 ^ (B - 1) := by omega
  have e1 : (j + 1) * (2:ℤ) ^ (B - 1) + ((n - 2 ^ (B - 1) : ℕ) : ℤ) =
      j * 2 ^ (B - 1) + (n : ℤ) := by
    push_cast [h1]
    ring
  have e2 : (j + 1) * (2:ℤ) ^ (B - 1) + ((2 ^ (B - 1) - 1 - (n - 2 ^ (B - 1)) : ℕ) : ℤ) =
      j * 2 ^ (B - 1) + ((2 ^ B + 2 ^ (B - 1) - 1 - n : ℕ) : ℤ) := by
    have hZ : (2:ℤ) ^ B = 2 * 2 ^ (B - 1) := by
      calc (2:ℤ) ^ B = 2 ^ (B - 1 + 1) := by
            congr 1
            omega
        _ = 2 * 2 ^ (B - 1) := by rw [pow_succ']
    push_cast [h1, c1, c2, c3, c4]
    rw [hZ]
    ring
  rw [e1, e2]
  have w1 : W (2 ^ B + 2 ^ (B - 1) - 1 - n) = W (n - 2 ^ (B - 1)) := by
    have hlt : 2 ^ B + 2 ^ (B - 1) - 1 - n < 2 ^ B := by omega
    rw [hsym _ hlt]
    congr 1
    omega
  have w2 : W (2 ^ (B - 1) - 1 - (n - 2 ^ (B - 1))) = W n := by
    rw [hsym n h2]
    congr 1
    omega
  rw [w1, w2]
  have hpb := hPB (n - 2 ^ (B - 1)) (by omega)
  have en : n - 2 ^ (B - 1) + 2 ^ (B - 1) = n := by omega
  rw [en] at hpb
  linear_combination s (j * 2 ^ (B - 1) + (n : ℤ)) * hpb

theorem mdct_ola_reconstruction_witness :
    sineWindow (2 ^ 2) 2 *
        mdctI 2 (mdctF 2
          (fun m => sineWindow (2 ^ 2) m * ((0 * 2 ^ (2 - 1) + (m : ℤ) : ℤ) : ℝ))) 2 +
      sineWindow (2 ^ 2) (2 - 2 ^ (2 - 1)) *
        mdctI 2 (mdctF 2
          (fun m => sineWindow (2 ^ 2) m * (((0 + 1) * 2 ^ (2 - 1) + (m : ℤ) : ℤ) : ℝ)))
          (2 - 2 ^ (2 - 1)) =
      ((0 * 2 ^ (2 - 1) + ((2 : ℕ) : ℤ) : ℤ) : ℝ) :=
  mdct_ola_reconstruction 2 (by norm_num) (sineWindow (2 ^ 2)) (fun z => (z : ℝ))
    (fun n _ => sineWindow_PB 2 (by norm_num) n)
    (fun n hn => sineWindow_symm 2 (by norm_num) n hn) 0 2 (by norm_num) (by norm_num)

/-- Box window for the C3 counterexample: 1 on the first half of the N = 4
block, 0 on the second; it satisfies the Princen–Bradley condition but is not
symmetric. -/
noncomputable def boxWindow : ℕ → ℝ := fun n => if n < 2 then 1 else 0

/-- Concrete signal for the C3 counterexample: the indicator of position 3. -/
noncomputable def c3s : ℤ → ℝ := fun z => if z = 3 then 1 else 0

/-- C3 counterexample: with N = 4 the box window satisfies the
Princen–Bradley condition W[n]² + W[n + N/2]² = 1 on the half-block, yet
overlap-add of the windowed `mdct(true) ∘ mdct(false)` round trip returns −1
at position 2 where the signal is 0. The Princen–Bradley condition alone, as
the claim states it, therefore does not give reconstruction. -/
theorem mdct_ola_fails_for_pb_only_window :
    (∀ n, n < 2 ^ (2 - 1) → boxWindow n ^ 2 + boxWindow (n + 2 ^ (2 - 1)) ^ 2 = 1) ∧
    boxWindow 2 * mdctI 2 (mdctF 2
        (fun m => boxWindow m * c3s (0 * 2 ^ (2 - 1) + (m : ℤ)))) 2 +
      boxWindow (2 - 2 ^ (2 - 1)) * mdctI 2 (mdctF 2
        (fun m => boxWindow m * c3s ((0 + 1) * 2 ^ (2 - 1) + (m : ℤ))))
          (2 - 2 ^ (2 - 1)) = -1 ∧
    c3s (0 * 2 ^ (2 - 1) + ((2 : ℕ) : ℤ)) = 0 ∧ ((-1 : ℝ) ≠ 0) := by
  refine ⟨?_, ?_, by norm_num [c3s], by norm_num⟩
  · intro n hn
    interval_cases n <;> norm_num [boxWindow]
  · have hA := mdct_roundtrip_ge 2
      (fun m => boxWindow m * c3s (0 * 2 ^ (2 - 1) + (m : ℤ))) 2
      (by norm_num) (by norm_num) (by norm_num)
    have hBr := mdct_roundtrip_lt 2
      (fun m => boxWindow m * c3s ((0 + 1) * 2 ^ (2 - 1) + (m : ℤ)))
      (2 - 2 ^ (2 - 1)) (by norm_num) (by norm_num)
    rw [hA, hBr]
    norm_num [boxWindow, c3s]

end Clunk
